import Mathlib

/-!
Verification of the `image_dater` repository (files `exif_parser.py`,
`image_dater.py`) against its natural-language specification.

Strings are modelled as `List Char`.  Every definition below is a shallow
embedding of a concrete piece of the Python source; the comment above each
definition names the function and lines it embeds.
-/

namespace ImageDater

/-- Python whitespace set used by `str.strip()` / regex `\s` (ASCII part). -/
def isPyWs (c : Char) : Bool :=
  c == ' ' || c == '\t' || c == '\n' || c == '\r' || c == '\x0b' || c == '\x0c'

/-- Model of Python `str.strip()`: drop whitespace from both ends. -/
def pyStrip (cs : List Char) : List Char :=
  ((cs.dropWhile isPyWs).reverse.dropWhile isPyWs).reverse

/-- Numeric value of a decimal digit character. -/
def charDigitVal (c : Char) : Nat := c.toNat - 48

/-- Value of a big-endian decimal digit string (value of `int(s)` on digits). -/
def decVal (cs : List Char) : Nat :=
  cs.foldl (fun a c => 10 * a + charDigitVal c) 0

/-- Decimal digit characters of `n` (big-endian), empty for `0`; fuel-based so
that it is structural and kernel-computable. -/
def decDigitsFuel : Nat → Nat → List Char
  | 0, _ => []
  | fuel + 1, n =>
    if n = 0 then [] else decDigitsFuel fuel (n / 10) ++ [Nat.digitChar (n % 10)]

/-- Decimal representation of a natural number, as Python `str(n)`. -/
def decRep (n : Nat) : List Char :=
  if n = 0 then ['0'] else decDigitsFuel (n + 1) n

/-- Model of the Python format `f'{n:03d}'`: zero-pad to width 3. -/
def pad3 (n : Nat) : List Char :=
  let s := decRep n
  List.replicate (3 - s.length) '0' ++ s

/-- Model of zero-padding to width 2 (`strftime` fields). -/
def pad2 (n : Nat) : List Char :=
  let s := decRep n
  List.replicate (2 - s.length) '0' ++ s

/-- Model of zero-padding to width 4 (`strftime` `%Y`). -/
def pad4 (n : Nat) : List Char :=
  let s := decRep n
  List.replicate (4 - s.length) '0' ++ s

/-- Two-digit value. -/
def num2 (a b : Char) : Nat := 10 * charDigitVal a + charDigitVal b

/-- Four-digit value. -/
def num4 (a b c d : Char) : Nat :=
  1000 * charDigitVal a + 100 * charDigitVal b + 10 * charDigitVal c + charDigitVal d

instance instDecEqExcept {ε α : Type} [DecidableEq ε] [DecidableEq α] :
    DecidableEq (Except ε α) := fun x y =>
  match x, y with
  | .ok a, .ok b =>
    if h : a = b then .isTrue (by rw [h]) else .isFalse (by simp [h])
  | .error a, .error b =>
    if h : a = b then .isTrue (by rw [h]) else .isFalse (by simp [h])
  | .ok _, .error _ => .isFalse (by simp)
  | .error _, .ok _ => .isFalse (by simp)

/-- A timezone-aware instant as produced by `datetime.datetime.fromisoformat`:
year/month/day/hour/minute/second/microsecond plus a UTC offset in minutes. -/
structure PyDateTime where
  year : Nat
  month : Nat
  day : Nat
  hour : Nat
  minute : Nat
  second : Nat
  microsecond : Nat
  offsetMinutes : Int
deriving DecidableEq

/-- Embeds `exif_parser.py` line 91: `re.sub(r'^(\d{4}):(\d{2}):(\d{2})',
r'\1-\2-\3', date_str)`.  Without MULTILINE the anchor `^` only matches at the
string start, so at most the leading `YYYY:MM:DD` is rewritten to dashes. -/
def rewriteSep (cs : List Char) : List Char :=
  match cs with
  | y1 :: y2 :: y3 :: y4 :: a :: m1 :: m2 :: b :: d1 :: d2 :: rest =>
    if y1.isDigit && y2.isDigit && y3.isDigit && y4.isDigit && a == ':' &&
       m1.isDigit && m2.isDigit && b == ':' && d1.isDigit && d2.isDigit then
      y1 :: y2 :: y3 :: y4 :: '-' :: m1 :: m2 :: '-' :: d1 :: d2 :: rest
    else cs
  | _ => cs

/-- Shape check and field extraction for the 19-character base
`\d{4}<sep>\d{2}<sep>\d{2} \d{2}:\d{2}:\d{2}` shared by the regexes `p1`
(`sep = ':'`, line 19) and `p2` (`sep = '-'`, line 24) of `exif_parser.py`.
Returns `(year, month, day, hour, minute, second)` digit values. -/
def parseBaseSep (sep : Char) (cs : List Char) :
    Option (Nat × Nat × Nat × Nat × Nat × Nat) :=
  match cs with
  | [y1, y2, y3, y4, a, mo1, mo2, b, d1, d2, sp, h1, h2, c, mi1, mi2, e, s1, s2] =>
    if y1.isDigit && y2.isDigit && y3.isDigit && y4.isDigit && a == sep &&
       mo1.isDigit && mo2.isDigit && b == sep && d1.isDigit && d2.isDigit &&
       sp == ' ' && h1.isDigit && h2.isDigit && c == ':' && mi1.isDigit &&
       mi2.isDigit && e == ':' && s1.isDigit && s2.isDigit then
      some (num4 y1 y2 y3 y4, num2 mo1 mo2, num2 d1 d2,
            num2 h1 h2, num2 mi1 mi2, num2 s1 s2)
    else none
  | _ => none

/-- The optional fractional group `(\.\d+)?` of `p2`/`p1`: greedily take a dot
followed by one or more digits, else match the empty string.  Returns the
matched group (dot included, as in Python `m.group`) and the rest. -/
def matchFrac : List Char → List Char × List Char
  | '.' :: c :: rest =>
    if c.isDigit then
      let (ds, r) := (c :: rest).span (fun x => x.isDigit)
      ('.' :: ds, r)
    else ([], '.' :: c :: rest)
  | cs => ([], cs)

/-- The optional numeric-offset group `([+-]\d{2}:\d{2})?`. -/
def matchTzNum : List Char → List Char × List Char
  | c :: h1 :: h2 :: k :: m1 :: m2 :: rest =>
    if (c == '+' || c == '-') && h1.isDigit && h2.isDigit && k == ':' &&
       m1.isDigit && m2.isDigit then
      ([c, h1, h2, k, m1, m2], rest)
    else ([], c :: h1 :: h2 :: k :: m1 :: m2 :: rest)
  | cs => ([], cs)

/-- The optional timezone group `([+-]\d{2}:\d{2}|Z)?` of `p2` (line 24). -/
def matchTz : List Char → List Char × List Char
  | 'Z' :: rest => (['Z'], rest)
  | cs => matchTzNum cs

/-- The optional literal `Z?` at the end of `p1`'s value pattern (line 19). -/
def matchOptZ : List Char → List Char × List Char
  | 'Z' :: rest => (['Z'], rest)
  | cs => ([], cs)

/-- Embeds `p2.match` (`exif_parser.py` lines 23-25, used at line 93):
`(\d{4}-\d{2}-\d{2} \d{2}:\d{2}:\d{2})(\.\d+)?([+-]\d{2}:\d{2}|Z)?` anchored at
the string start only (`re.match`), trailing characters permitted.  The base
group is of fixed shape, the optional groups always succeed (possibly empty),
so the regex match is this deterministic greedy parse.  Returns the three
groups and the unmatched rest. -/
def matchP2 (cs : List Char) :
    Option (List Char × List Char × List Char × List Char) :=
  match parseBaseSep '-' (cs.take 19) with
  | none => none
  | some _ =>
    let fr := matchFrac (cs.drop 19)
    let tz := matchTz fr.2
    some (cs.take 19, fr.1, tz.1, tz.2)

/-- Embeds `to_isoformat_with_microseconds` (`exif_parser.py` lines 81-112).
`Except.error ()` models `raise ValueError("Invalid date format")`. -/
def to_isoformat_with_microseconds (cs : List Char) : Except Unit (List Char) :=
  let s := rewriteSep (pyStrip cs)
  match matchP2 s with
  | none => .error ()
  | some (b, f, z, _) =>
    let frac : List Char :=
      if f = [] then '.' :: ("000000").toList
      else '.' :: ((f.drop 1) ++ ("000000").toList).take 6
    let tz : List Char :=
      if z = ['Z'] then ("+00:00").toList
      else if z = [] then ("+00:00").toList
      else z
    .ok (b ++ (frac ++ tz))

/-- Leap-year rule used by Python's `datetime`. -/
def isLeap (y : Nat) : Bool := (y % 4 == 0 && y % 100 != 0) || y % 400 == 0

/-- Days in a month, as validated by the `datetime` constructor. -/
def daysInMonth (y m : Nat) : Nat :=
  if m = 2 then (if isLeap y then 29 else 28)
  else if m = 4 ∨ m = 6 ∨ m = 9 ∨ m = 11 then 30 else 31

/-- Parse of the 7-character fractional block `.dddddd`. -/
def parseFrac7 : List Char → Option Nat
  | '.' :: ds => if ds.length = 6 && ds.all (fun c => c.isDigit)
                 then some (decVal ds) else none
  | _ => none

/-- Parse of the trailing offset block `[+-]\d{2}:\d{2}`, in minutes. -/
def parseTzEnd : List Char → Option Int
  | [c, h1, h2, k, m1, m2] =>
    if (c == '+' || c == '-') && h1.isDigit && h2.isDigit && k == ':' &&
       m1.isDigit && m2.isDigit then
      some ((if c == '-' then -1 else 1) * (num2 h1 h2 * 60 + num2 m1 m2))
    else none
  | _ => none

/-- The field-range validation of the `datetime`/`timezone` constructors:
year 1..9999, month 1..12, day within the month, hour ≤ 23, minute and second
≤ 59, microsecond ≤ 999999, |offset| strictly less than 24 hours. -/
def fieldsInRange (y mo d h mi s us : Nat) (off : Int) : Bool :=
  1 ≤ y && y ≤ 9999 && 1 ≤ mo && mo ≤ 12 && 1 ≤ d && d ≤ daysInMonth y mo &&
  h ≤ 23 && mi ≤ 59 && s ≤ 59 && us ≤ 999999 && off.natAbs < 1440

/-- Model of `datetime.datetime.fromisoformat` (`exif_parser.py` line 74) on
the reassembled canonical shape `YYYY-MM-DD HH:MM:SS.ffffff±HH:MM`: the shape
is parsed structurally, then the field ranges are validated exactly as the
`datetime`/`timezone` constructors do; a violation is `None`, modelling the
raised `ValueError`. -/
def fromisoformat (cs : List Char) : Option PyDateTime :=
  match parseBaseSep '-' (cs.take 19), parseFrac7 ((cs.drop 19).take 7),
        parseTzEnd (cs.drop 26) with
  | some (y, mo, d, h, mi, s), some us, some off =>
    if fieldsInRange y mo d h mi s us off then
      some ⟨y, mo, d, h, mi, s, us, off⟩
    else none
  | _, _, _ => none

/-- The per-candidate normalization pipeline of `parse_exif_data` lines 72-74:
`to_isoformat_with_microseconds` then `datetime.fromisoformat`.  `none` means
some `ValueError` was raised along the way. -/
def normalize (cs : List Char) : Option PyDateTime :=
  match to_isoformat_with_microseconds cs with
  | .error _ => none
  | .ok r => fromisoformat r

/-- The date-value pattern of `p1` (`exif_parser.py` lines 18-21):
`\d{4}:\d{2}:\d{2} \d{2}:\d{2}:\d{2}(?:\.\d+)?(?:[+-]\d{2}:\d{2})?Z?`,
matched greedily.  Returns the matched value string (group 2) and the rest. -/
def p1Date (cs : List Char) : Option (List Char × List Char) :=
  match parseBaseSep ':' (cs.take 19) with
  | none => none
  | some _ =>
    let fr := matchFrac (cs.drop 19)
    let tn := matchTzNum fr.2
    let oz := matchOptZ tn.2
    some (cs.take 19 ++ (fr.1 ++ (tn.1 ++ oz.1)), oz.2)

/-- `[^:]+` followed by a literal `:`: split at the first colon, requiring a
nonempty colon-free label before it. -/
def splitAtColon (cs : List Char) : Option (List Char × List Char) :=
  match cs.span (fun c => c != ':') with
  | (pre, ':' :: post) => if pre = [] then none else some (pre, post)
  | _ => none

/-- One attempt of the regex `p1` at a `^` anchor position:
`^([^:]+):\s+(<date pattern>)`.  Since `[^:]+` is a maximal colon-free run and
`\s` and `\d` are disjoint, the backtracking regex match is this deterministic
parse.  Returns `(label, date string, rest)`. -/
def matchP1 (cs : List Char) : Option (List Char × List Char × List Char) :=
  match splitAtColon cs with
  | none => none
  | some (lab, afterColon) =>
    let sp := afterColon.span isPyWs
    if sp.1 = [] then none
    else
      match p1Date sp.2 with
      | none => none
      | some (ds, rest) => some (lab, ds, rest)

/-- Skip to just past the next newline (the next MULTILINE `^` anchor). -/
def dropLine (cs : List Char) : List Char :=
  ((cs.dropWhile (fun c => c != '\n')).drop 1)

/-- Model of `p1.finditer` (`exif_parser.py` line 69): scan the metadata text,
attempting `p1` at each line start, resuming after a match's end (matches are
non-overlapping; a match never ends with a newline, so the next anchor is past
the next newline).  Fuel-based so that it is structural; `scan` below supplies
fuel that is irrelevant to every theorem (all are fuel-generic). -/
def scanFuel : Nat → List Char → List (List Char × List Char)
  | 0, _ => []
  | fuel + 1, cs =>
    match matchP1 cs with
    | some (lab, ds, rest) => (lab, ds) :: scanFuel fuel (dropLine rest)
    | none => scanFuel fuel (dropLine cs)

/-- All `(label, raw value)` matches of `p1` over a metadata text. -/
def scan (cs : List Char) : List (List Char × List Char) :=
  scanFuel (cs.length + 1) cs

/-- A labeled timestamp set: field label to parsed timestamp, insertion order. -/
abbrev Dict := List (List Char × PyDateTime)

/-- Python dict assignment `d[k] = v`: overwrite in place, else append. -/
def upsert {β : Type} (d : List (List Char × β)) (k : List Char) (v : β) :
    List (List Char × β) :=
  match d with
  | [] => [(k, v)]
  | (k', v') :: rest => if k' = k then (k, v) :: rest else (k', v') :: upsert rest k v

/-- The candidate loop of `parse_exif_data` (`exif_parser.py` lines 68-79),
run on the match list.  `to_isoformat_with_microseconds` is called OUTSIDE the
`try`, so a `ValueError` there aborts the whole scan (`Except.error`), while a
`ValueError` from `fromisoformat` is caught (`except ValueError: pass`) and
only drops that candidate. -/
def parseCands : List (List Char × List Char) → Dict → Except Unit Dict
  | [], d => .ok d
  | (lab, ds) :: rest, d =>
    match to_isoformat_with_microseconds ds with
    | .error e => .error e
    | .ok r =>
      match fromisoformat r with
      | none => parseCands rest d
      | some dt => parseCands rest (upsert d (pyStrip lab) dt)

/-- Embeds `parse_exif_data` (`exif_parser.py` lines 52-79) from the raw
metadata text (the exiftool output) to the labeled timestamp set. -/
def parse_exif_data (text : List Char) : Except Unit Dict :=
  parseCands (scan text) []

/-- The per-candidate total fold: a candidate whose normalization pipeline
fails is dropped, all others are inserted.  Reference semantics for the
"one bad field never aborts the rest" property. -/
def buildDict : List (List Char × List Char) → Dict → Dict
  | [], d => d
  | (lab, ds) :: rest, d =>
    match normalize ds with
    | none => buildDict rest d
    | some dt => buildDict rest (upsert d (pyStrip lab) dt)

/-- First-occurrence association-list lookup (Python `field in d` / `d[field]`;
keys are unique in a dict, so first occurrence is the binding). -/
def lookupK {β : Type} (d : List (List Char × β)) (k : List Char) : Option β :=
  match d with
  | [] => none
  | (k', v) :: rest => if k' = k then some v else lookupK rest k

/-- The fixed priority list of `get_photo_taken_date`
(`exif_parser.py` lines 35-44). -/
def fields_priority : List (List Char) :=
  [("Date/Time Original").toList,
   ("Creation Date").toList,
   ("Media Create Date").toList,
   ("Track Create Date").toList,
   ("Create Date").toList,
   ("Date Created").toList,
   ("Modify Date").toList,
   ("File Modification Date/Time").toList]

/-- The priority loop of `get_photo_taken_date` (`exif_parser.py` lines
32-50): `None` on an empty dict, else the binding of the first priority label
present, else `None`. -/
def priority_resolve (d : Dict) : Option PyDateTime :=
  if d = [] then none
  else fields_priority.findSome? (fun f => lookupK d f)

/-- Embeds `get_photo_taken_date` (`exif_parser.py` lines 27-50) from the raw
metadata text; an uncaught `ValueError` from the candidate loop propagates. -/
def get_photo_taken_date (text : List Char) : Except Unit (Option PyDateTime) :=
  match parse_exif_data text with
  | .error e => .error e
  | .ok d => .ok (priority_resolve d)

/-! Embedding of `image_dater.py`. -/

/-- A filesystem path, as the character list of its string. -/
abbrev Path := List Char

/-- Python `str.lower()` (ASCII range, which covers every supported
extension). -/
def pyLower (cs : List Char) : List Char := cs.map Char.toLower

/-- The supported-extension allow-list of `image_dater.py` line 85. -/
def supported_exts : List Path :=
  [(".heic").toList, (".mov").toList, (".jpeg").toList, (".jpg").toList,
   (".mp4").toList, (".png").toList, (".webp").toList]

/-- Embeds the filter `f.lower().endswith(('.heic', '.mov', '.jpeg', '.jpg',
'.mp4', '.png', '.webp'))` of `image_dater.py` line 85. -/
def admitted (f : Path) : Bool :=
  supported_exts.any (fun e => e.isSuffixOf (pyLower f))

/-- `posixpath.join(a, b)` (the tool runs on Linux/WSL): `b` if absolute, else
`a` + separator (if needed) + `b`. -/
def pyJoin (a b : Path) : Path :=
  if b.head? = some '/' then b
  else if a = [] ∨ a.getLast? = some '/' then a ++ b
  else a ++ '/' :: b

/-- `s.replace('\\', '/')` (`image_dater.py` lines 87 and 121). -/
def pyReplaceBS (cs : Path) : Path :=
  cs.map (fun c => if c = '\\' then '/' else c)

/-- Split at the LAST occurrence of `sep`: `(before, after)`, `sep` removed. -/
def splitLast (sep : Char) (cs : List Char) : Option (List Char × List Char) :=
  match cs with
  | [] => none
  | c :: rest =>
    match splitLast sep rest with
    | some (a, b) => some (c :: a, b)
    | none => if c = sep then some ([], rest) else none

/-- `posixpath.dirname`: everything before the last `/`; a nonempty head that
is not all slashes has its trailing slashes stripped. -/
def pyDirname (p : Path) : Path :=
  match splitLast '/' p with
  | none => []
  | some (before, _) =>
    let head := before ++ ['/']
    if head.all (fun c => c = '/') then head
    else (head.reverse.dropWhile (fun c => c = '/')).reverse

/-- The extension component of `posixpath.splitext(p)`: from the last dot of
the basename, unless every basename character before that dot is a dot. -/
def pySplitextExt (p : Path) : Path :=
  let b := match splitLast '/' p with
           | none => p
           | some (_, base) => base
  match splitLast '.' b with
  | none => []
  | some (pre, suf) => if pre.any (fun c => c != '.') then '.' :: suf else []

/-- `date_to_str` (`image_dater.py` lines 156-161):
`date_obj.strftime('%Y%m%d-%H%M%S')`, zero-padded fields. -/
def date_to_str (dt : PyDateTime) : Path :=
  pad4 dt.year ++ pad2 dt.month ++ pad2 dt.day ++
    '-' :: (pad2 dt.hour ++ pad2 dt.minute ++ pad2 dt.second)

/-- The filepath computed for a walk entry `(root, f)`:
`os.path.join(root, f).replace('\\', '/')` (`image_dater.py` line 87). -/
def fpOf (rf : Path × Path) : Path := pyReplaceBS (pyJoin rf.1 rf.2)

/-- The first loop of `parse_and_rename_images` (`image_dater.py` lines
77-100): walk entries `(root, filename)` are filtered by extension, then the
external `exif_parser.get_photo_taken_date` call — abstracted as `oracle` on
the filepath — feeds `date_to_str`.  The bare `except:` catches both an
extraction failure (`.error ()`) and the `AttributeError` that
`date_to_str(None)` raises (`.ok none`); either logs the filepath and skips
the file.  Returns the filepath-to-date-string dict and the log list. -/
def parseStep (oracle : Path → Except Unit (Option PyDateTime))
    (acc : List (Path × Path) × List Path) (rf : Path × Path) :
    List (Path × Path) × List Path :=
  if admitted rf.2 then
    match oracle (fpOf rf) with
    | .error _ => (acc.1, acc.2 ++ [fpOf rf])
    | .ok none => (acc.1, acc.2 ++ [fpOf rf])
    | .ok (some dt) => (upsert acc.1 (fpOf rf) (date_to_str dt), acc.2)
  else acc

def parse_loop (files : List (Path × Path))
    (oracle : Path → Except Unit (Option PyDateTime)) :
    List (Path × Path) × List Path :=
  files.foldl (parseStep oracle) ([], [])


/-! Lemmas about the walk/parse loop. -/

theorem parseStep_shift (o : Path → Except Unit (Option PyDateTime))
    (d : List (Path × Path)) (L : List Path) (rf : Path × Path) :
    parseStep o (d, L) rf =
      ((parseStep o (d, []) rf).1, L ++ (parseStep o (d, []) rf).2) := by
  unfold parseStep
  by_cases ha : admitted rf.2
  · rw [if_pos ha, if_pos ha]
    cases o (fpOf rf) with
    | error e => simp
    | ok w =>
      cases w with
      | none => simp
      | some dt => simp
  · rw [if_neg ha, if_neg ha]
    simp

theorem foldl_parseStep_shift (o : Path → Except Unit (Option PyDateTime)) :
    ∀ (files : List (Path × Path)) (d : List (Path × Path)) (L : List Path),
    List.foldl (parseStep o) (d, L) files =
      ((List.foldl (parseStep o) (d, []) files).1,
        L ++ (List.foldl (parseStep o) (d, []) files).2) := by
  intro files
  induction files with
  | nil => intro d L; simp
  | cons rf rest ih =>
    intro d L
    rw [List.foldl_cons, List.foldl_cons,
      parseStep_shift o d L rf, parseStep_shift o d [] rf]
    rcases h0 : parseStep o (d, []) rf with ⟨d1, l1⟩
    dsimp only
    rw [List.nil_append, ih d1 (L ++ l1), ih d1 l1]
    simp

theorem foldl_parseStep_filter (o : Path → Except Unit (Option PyDateTime)) :
    ∀ (files : List (Path × Path)) (init : List (Path × Path) × List Path),
    List.foldl (parseStep o) init files =
      List.foldl (parseStep o) init (files.filter (fun rf => admitted rf.2)) := by
  intro files
  induction files with
  | nil => intro init; rfl
  | cons rf rest ih =>
    intro init
    rw [List.foldl_cons, List.filter_cons]
    by_cases ha : admitted rf.2
    · simp only [ha, if_true, List.foldl_cons]
      exact ih _
    · have ha' : admitted rf.2 = false := by simpa using ha
      simp only [ha', Bool.false_eq_true, if_false]
      have hid : parseStep o init rf = init := by
        unfold parseStep
        rw [if_neg ha]
      rw [hid]
      exact ih init

/-- A file whose oracle call fails (extraction error, or no date so that
`date_to_str(None)` raises) contributes nothing to the dict and one log
entry; the rest of the fold is unaffected. -/
theorem parse_loop_skip {oracle : Path → Except Unit (Option PyDateTime)}
    {rf : Path × Path} (ha : admitted rf.2 = true)
    (hf : oracle (fpOf rf) = .error () ∨ oracle (fpOf rf) = .ok none) :
    ∀ pre post : List (Path × Path),
      (parse_loop (pre ++ rf :: post) oracle).1 =
        (parse_loop (pre ++ post) oracle).1 ∧
      fpOf rf ∈ (parse_loop (pre ++ rf :: post) oracle).2 := by
  intro pre post
  unfold parse_loop
  rw [List.foldl_append, List.foldl_append]
  rcases hpre : List.foldl (parseStep oracle) ([], []) pre with ⟨d0, L0⟩
  rw [List.foldl_cons]
  have hstep : parseStep oracle (d0, L0) rf = (d0, L0 ++ [fpOf rf]) := by
    unfold parseStep
    rw [if_pos ha]
    rcases hf with hf | hf <;> rw [hf]
  rw [hstep, foldl_parseStep_shift oracle post d0 (L0 ++ [fpOf rf]),
    foldl_parseStep_shift oracle post d0 L0]
  constructor
  · rfl
  · simp

/-- The destination candidate of `image_dater.py` lines 118-121:
`os.path.join(os.path.dirname(filepath), f'{date_str}-{cntr:03d}')
.replace('\\', '/') + os.path.splitext(filepath)[1]`. -/
def dstCandidate (filepath date_str : Path) (cntr : Nat) : Path :=
  pyReplaceBS (pyJoin (pyDirname filepath) (date_str ++ '-' :: pad3 cntr)) ++
    pySplitextExt filepath

/-- The `while True` search of `image_dater.py` lines 115-127: starting at
counter `c`, stop at the first candidate that does not exist or equals the
source.  Fuel-based; `findDst` supplies fuel that provably suffices. -/
def findDstAux (fs : List Path) (src : Path) (cand : Nat → Path) :
    Nat → Nat → Option Path
  | _, 0 => none
  | c, fuel + 1 =>
    if cand c ∈ fs then
      if cand c = src then some (cand c)
      else findDstAux fs src cand (c + 1) fuel
    else some (cand c)

/-- The destination computed for one file (counter starts at 0). -/
def findDst (fs : List Path) (src : Path) (cand : Nat → Path) : Option Path :=
  findDstAux fs src cand 0 (fs.length + 1)

/-- The rename loop of `parse_and_rename_images` (`image_dater.py` lines
109-153) over the dict entries, with the filesystem as the list of existing
paths.  `Except.error ()` models a failure of the loop: fuel exhaustion of
the candidate search (which cannot happen) or the assertion
`assert not os.path.exists(dst_filepath)` of line 140 firing.  A non-no-op
entry executes `os.rename`, i.e. removes `src` and adds `dst`.  Returns the
final filesystem and the executed rename list in order. -/
def execBatch : List (Path × Path) → List Path →
    Except Unit (List Path × List (Path × Path))
  | [], fs => .ok (fs, [])
  | (src, date) :: rest, fs =>
    match findDst fs src (dstCandidate src date) with
    | none => .error ()
    | some dst =>
      if dst = src then execBatch rest fs
      else if dst ∈ fs then .error ()
      else
        match execBatch rest (dst :: fs.erase src) with
        | .error e => .error e
        | .ok (fs', moves) => .ok (fs', (src, dst) :: moves)

/-! Helper definitions used in claim statements. -/

/-- Whether an `Except` value is a success. -/
def exceptOk {e a : Type} : Except e a → Bool
  | .ok _ => true
  | .error _ => false

/-- The 6 microsecond digit characters derived from an optional fractional
group: drop the dot, right-pad with zeros, truncate to 6 (the absent group
gives `000000`). -/
def fracDigitsOf (f : List Char) : List Char :=
  ((f.drop 1) ++ ("000000").toList).take 6

/-- The normalized offset string: `Z` or absent become `+00:00`, an explicit
offset is kept verbatim. -/
def tzStrOf (z : List Char) : List Char :=
  if z = ['Z'] ∨ z = [] then ("+00:00").toList else z

/-- The offset value (in minutes) of a timezone group: 0 for `Z` or absent,
the parsed signed value otherwise. -/
def offValOf (z : List Char) : Int :=
  if z = ['Z'] ∨ z = [] then 0
  else
    match parseTzEnd z with
    | some o => o
    | none => 0

/-- A sample metadata oracle for the three-file batch scenario: `t/c.jpg`
fails extraction, the other two files carry dates. -/
def sampleOracle : Path → Except Unit (Option PyDateTime) := fun fp =>
  if fp = ("t/c.jpg").toList then .error ()
  else if fp = ("t/a.jpg").toList then .ok (some ⟨2024, 3, 31, 14, 38, 15, 0, 0⟩)
  else .ok (some ⟨2024, 1, 1, 0, 0, 0, 0, 0⟩)

/-! Lemmas about decimal formatting. -/

theorem charDigitVal_digitChar {d : Nat} (h : d < 10) :
    charDigitVal (Nat.digitChar d) = d := by
  interval_cases d <;> decide

theorem digitChar_isDigit {d : Nat} (h : d < 10) :
    (Nat.digitChar d).isDigit = true := by
  interval_cases d <;> decide

theorem decVal_append (xs ys : List Char) :
    decVal (xs ++ ys) =
      ys.foldl (fun a c => 10 * a + charDigitVal c) (decVal xs) := by
  simp [decVal, List.foldl_append]

theorem decDigitsFuel_chars {fuel n : Nat} {c : Char}
    (h : c ∈ decDigitsFuel fuel n) : c.isDigit = true := by
  induction fuel generalizing n with
  | zero => simp [decDigitsFuel] at h
  | succ fuel ih =>
    simp only [decDigitsFuel] at h
    by_cases hn : n = 0
    · simp [hn] at h
    · simp only [hn, if_false, List.mem_append, List.mem_singleton] at h
      rcases h with h | h
      · exact ih h
      · subst h; exact digitChar_isDigit (Nat.mod_lt _ (by norm_num))

theorem decVal_decDigitsFuel {fuel n : Nat} (h : n < fuel) :
    decVal (decDigitsFuel fuel n) = n := by
  induction fuel generalizing n with
  | zero => omega
  | succ fuel ih =>
    simp only [decDigitsFuel]
    by_cases hn : n = 0
    · simp [hn, decVal]
    · simp only [hn, if_false]
      rw [decVal_append]
      simp only [List.foldl_cons, List.foldl_nil]
      have h10 : n / 10 < fuel := by
        have := Nat.div_lt_self (Nat.pos_of_ne_zero hn) (by norm_num : 1 < 10)
        omega
      rw [ih h10, charDigitVal_digitChar (Nat.mod_lt _ (by norm_num))]
      omega

theorem decVal_decRep (n : Nat) : decVal (decRep n) = n := by
  unfold decRep
  by_cases hn : n = 0
  · simp [hn, decVal, charDigitVal]
  · simp only [hn, if_false]
    exact decVal_decDigitsFuel (Nat.lt_succ_self n)

theorem decRep_chars {n : Nat} {c : Char} (h : c ∈ decRep n) :
    c.isDigit = true := by
  unfold decRep at h
  by_cases hn : n = 0
  · simp [hn] at h; subst h; decide
  · simp only [hn, if_false] at h
    exact decDigitsFuel_chars h

theorem decVal_replicate_zero (k : Nat) (s : List Char) :
    decVal (List.replicate k '0' ++ s) = decVal s := by
  induction k with
  | zero => simp
  | succ k ih =>
    rw [List.replicate_succ, List.cons_append]
    simpa [decVal, charDigitVal] using ih

theorem decVal_pad3 (n : Nat) : decVal (pad3 n) = n := by
  unfold pad3
  rw [decVal_replicate_zero, decVal_decRep]

theorem pad3_injective : Function.Injective pad3 := by
  intro a b h
  have := congrArg decVal h
  rwa [decVal_pad3, decVal_pad3] at this

theorem pad3_chars {n : Nat} {c : Char} (h : c ∈ pad3 n) : c.isDigit = true := by
  unfold pad3 at h
  simp only [List.mem_append, List.mem_replicate] at h
  rcases h with h | h
  · rw [h.2]; decide
  · exact decRep_chars h

/-! Lemmas about the destination candidate and the counter search. -/

theorem pyReplaceBS_pad3 (n : Nat) : pyReplaceBS (pad3 n) = pad3 n := by
  unfold pyReplaceBS
  have : ∀ c ∈ pad3 n, (if c = '\\' then '/' else c) = id c := by
    intro c hc
    have hd := pad3_chars hc
    have : c ≠ '\\' := by
      intro he; subst he; simp [Char.isDigit] at hd
    simp [this]
  rw [List.map_congr_left this, List.map_id]

theorem pyReplaceBS_append (a b : Path) :
    pyReplaceBS (a ++ b) = pyReplaceBS a ++ pyReplaceBS b := by
  simp [pyReplaceBS]

theorem pyReplaceBS_cons_dash (l : Path) :
    pyReplaceBS ('-' :: l) = '-' :: pyReplaceBS l := by
  simp [pyReplaceBS]

/-- The prefix contributed by `pyJoin` is the same for every counter value. -/
theorem pyJoin_fixed (a d : Path) :
    ∃ P, ∀ c : Nat, pyJoin a (d ++ '-' :: pad3 c) = P ++ (d ++ '-' :: pad3 c) := by
  have hhead : ∀ c : Nat, (d ++ '-' :: pad3 c).head? = (d ++ ['-']).head? := by
    intro c; cases d <;> simp
  by_cases h1 : (d ++ ['-']).head? = some '/'
  · refine ⟨[], fun c => ?_⟩
    unfold pyJoin
    rw [if_pos (by rw [hhead c]; exact h1), List.nil_append]
  · by_cases h2 : a = [] ∨ a.getLast? = some '/'
    · refine ⟨a, fun c => ?_⟩
      unfold pyJoin
      rw [if_neg (by rw [hhead c]; exact h1), if_pos h2]
    · refine ⟨a ++ ['/'], fun c => ?_⟩
      unfold pyJoin
      rw [if_neg (by rw [hhead c]; exact h1), if_neg h2]
      simp

theorem dstCandidate_inj (fp d : Path) : Function.Injective (dstCandidate fp d) := by
  intro c₁ c₂ h
  obtain ⟨P, hP⟩ := pyJoin_fixed (pyDirname fp) d
  unfold dstCandidate at h
  rw [hP c₁, hP c₂] at h
  have h' := List.append_cancel_right h
  simp only [pyReplaceBS_append, pyReplaceBS_cons_dash, pyReplaceBS_pad3] at h'
  have h'' := List.append_cancel_left h'
  have h3 := List.append_cancel_left h''
  exact pad3_injective (List.cons_injective h3)

/-- The destination candidates of one file for equal directory and extension
data agree between two source files. -/
theorem dstCandidate_congr {s₁ s₂ d : Path} (hdir : pyDirname s₂ = pyDirname s₁)
    (hext : pySplitextExt s₂ = pySplitextExt s₁) :
    dstCandidate s₂ d = dstCandidate s₁ d := by
  funext c; unfold dstCandidate; rw [hdir, hext]

theorem nodup_subset_length {α : Type} [DecidableEq α] {l fs : List α}
    (hn : l.Nodup) (hs : ∀ x ∈ l, x ∈ fs) : l.length ≤ fs.length :=
  calc l.length = l.toFinset.card := (List.toFinset_card_of_nodup hn).symm
    _ ≤ fs.toFinset.card := Finset.card_le_card (fun x hx => by
        rw [List.mem_toFinset] at *; exact hs x hx)
    _ ≤ fs.length := List.toFinset_card_le fs

/-- Pigeonhole: an injective candidate function cannot keep hitting a finite
filesystem forever. -/
theorem exists_fresh_cand {cand : Nat → Path} (hinj : Function.Injective cand)
    (fs : List Path) : ∃ k, k ≤ fs.length ∧ cand k ∉ fs := by
  by_contra hc
  push_neg at hc
  have hlist : ∀ x ∈ (List.range (fs.length + 1)).map cand, x ∈ fs := by
    intro x hx
    simp only [List.mem_map, List.mem_range] at hx
    obtain ⟨k, hk, rfl⟩ := hx
    exact hc k (by omega)
  have hnd : ((List.range (fs.length + 1)).map cand).Nodup :=
    (List.nodup_range _).map hinj
  have := nodup_subset_length hnd hlist
  simp at this

theorem findDstAux_spec {fs : List Path} {src : Path} {cand : Nat → Path} :
    ∀ {start fuel : Nat} {d : Path},
      findDstAux fs src cand start fuel = some d → d ∉ fs ∨ d = src := by
  intro start fuel
  induction fuel generalizing start with
  | zero => intro d h; simp [findDstAux] at h
  | succ fuel ih =>
    intro d h
    unfold findDstAux at h
    split at h
    · split at h
      · right; cases h; assumption
      · exact ih h
    · left; cases h; assumption

theorem findDstAux_isSome {fs : List Path} {src : Path} {cand : Nat → Path} :
    ∀ (fuel start : Nat),
      (∃ k, k < fuel ∧ (cand (start + k) ∉ fs ∨ cand (start + k) = src)) →
      (findDstAux fs src cand start fuel).isSome = true := by
  intro fuel
  induction fuel with
  | zero => intro start ⟨k, hk, _⟩; omega
  | succ fuel ih =>
    intro start ⟨k, hk, hacc⟩
    unfold findDstAux
    by_cases h1 : cand start ∈ fs
    · by_cases h2 : cand start = src
      · rw [if_pos h1, if_pos h2]; rfl
      · rw [if_pos h1, if_neg h2]
        apply ih
        cases k with
        | zero =>
          rw [Nat.add_zero] at hacc
          rcases hacc with h | h
          · exact absurd h1 h
          · exact absurd h h2
        | succ k =>
          exact ⟨k, by omega, by rwa [show start + 1 + k = start + (k + 1) by omega]⟩
    · rw [if_neg h1]; rfl

theorem findDst_isSome {fs : List Path} {src : Path} {cand : Nat → Path}
    (hinj : Function.Injective cand) : (findDst fs src cand).isSome = true := by
  obtain ⟨k, hk, hf⟩ := exists_fresh_cand hinj fs
  exact findDstAux_isSome _ 0 ⟨k, by omega, by rw [Nat.zero_add]; exact Or.inl hf⟩

theorem findDst_spec {fs : List Path} {src : Path} {cand : Nat → Path} {d : Path}
    (h : findDst fs src cand = some d) : d ∉ fs ∨ d = src :=
  findDstAux_spec h

theorem findDstAux_reach_src {fs : List Path} {src : Path} {cand : Nat → Path} :
    ∀ (m start fuel : Nat), m < fuel → cand (start + m) = src →
      (∀ j < m, cand (start + j) ∈ fs ∧ cand (start + j) ≠ src) →
      findDstAux fs src cand start fuel = some src := by
  intro m
  induction m with
  | zero =>
    intro start fuel hfu hsrc _
    cases fuel with
    | zero => omega
    | succ fuel =>
      rw [Nat.add_zero] at hsrc
      unfold findDstAux
      by_cases h1 : cand start ∈ fs
      · rw [if_pos h1, if_pos hsrc, hsrc]
      · rw [if_neg h1, hsrc]
  | succ m ih =>
    intro start fuel hfu hsrc hprev
    cases fuel with
    | zero => omega
    | succ fuel =>
      have h0 := hprev 0 (by omega)
      rw [Nat.add_zero] at h0
      unfold findDstAux
      rw [if_pos h0.1, if_neg h0.2]
      exact ih (start + 1) fuel (by omega)
        (by rw [show start + 1 + m = start + (m + 1) by omega]; exact hsrc)
        (fun j hj => by
          rw [show start + 1 + j = start + (j + 1) by omega]
          exact hprev (j + 1) (by omega))

theorem findDst_noop {fs : List Path} {src : Path} {cand : Nat → Path} {k : Nat}
    (hinj : Function.Injective cand) (hk : cand k = src)
    (hprev : ∀ j < k, cand j ∈ fs ∧ cand j ≠ src) :
    findDst fs src cand = some src := by
  have hb : k ≤ fs.length := by
    have hnd : ((List.range k).map cand).Nodup := (List.nodup_range _).map hinj
    have hsub : ∀ x ∈ (List.range k).map cand, x ∈ fs := by
      intro x hx
      simp only [List.mem_map, List.mem_range] at hx
      obtain ⟨j, hj, rfl⟩ := hx
      exact (hprev j hj).1
    have := nodup_subset_length hnd hsub
    simpa using this
  exact findDstAux_reach_src k 0 (fs.length + 1) (by omega)
    (by rwa [Nat.zero_add]) (fun j hj => by rw [Nat.zero_add]; exact hprev j hj)

/-- The candidate search succeeds immediately when candidate 0 is fresh. -/
theorem findDst_first {fs : List Path} {src : Path} {cand : Nat → Path}
    (h : cand 0 ∉ fs) : findDst fs src cand = some (cand 0) := by
  unfold findDst findDstAux
  rw [if_neg h]

/-- The candidate search returns candidate 1 when candidate 0 is taken by a
different file and candidate 1 is fresh. -/
theorem findDst_second {fs : List Path} {src : Path} {cand : Nat → Path}
    (h0 : cand 0 ∈ fs) (h0src : cand 0 ≠ src) (h1 : cand 1 ∉ fs) :
    findDst fs src cand = some (cand 1) := by
  obtain ⟨m, hm⟩ : ∃ m, fs.length = m + 1 := by
    cases fs with
    | nil => simp at h0
    | cons a l => exact ⟨l.length, rfl⟩
  unfold findDst
  rw [hm]
  unfold findDstAux
  rw [if_pos h0, if_neg h0src]
  unfold findDstAux
  rw [if_neg h1]

/-- The batch rename loop never fails: the candidate search always terminates
and the `assert not os.path.exists(dst_filepath)` of line 140 never fires. -/
theorem execBatch_isOk : ∀ (entries : List (Path × Path)) (fs : List Path),
    ∃ out, execBatch entries fs = .ok out := by
  intro entries
  induction entries with
  | nil => intro fs; exact ⟨_, rfl⟩
  | cons e rest ih =>
    intro fs
    obtain ⟨src, date⟩ := e
    have hs := @findDst_isSome fs src (dstCandidate src date) (dstCandidate_inj src date)
    rcases hx : findDst fs src (dstCandidate src date) with _ | dst
    · rw [hx] at hs; simp at hs
    · simp only [execBatch, hx]
      by_cases hnoop : dst = src
      · rw [if_pos hnoop]; exact ih fs
      · rw [if_neg hnoop]
        have hnot : dst ∉ fs := by
          rcases findDst_spec hx with h | h
          · exact h
          · exact absurd h hnoop
        rw [if_neg hnot]
        obtain ⟨out, hout⟩ := ih (dst :: fs.erase src)
        rw [hout]
        exact ⟨_, rfl⟩

/-- A batch whose every entry already sits at its canonical slot (candidate
`k` equals the source and all lower candidates are other existing files)
changes nothing and executes no rename. -/
theorem execBatch_allNoop : ∀ (entries : List (Path × Path)) (fs : List Path),
    (∀ e ∈ entries, ∃ k, dstCandidate e.1 e.2 k = e.1 ∧
      ∀ j < k, dstCandidate e.1 e.2 j ∈ fs ∧ dstCandidate e.1 e.2 j ≠ e.1) →
    execBatch entries fs = .ok (fs, []) := by
  intro entries
  induction entries with
  | nil => intro fs _; rfl
  | cons e rest ih =>
    intro fs h
    obtain ⟨src, date⟩ := e
    obtain ⟨k, hk, hprev⟩ := h (src, date) (List.mem_cons_self _ _)
    simp only at hk hprev
    have hfind := findDst_noop (dstCandidate_inj src date) hk hprev
    simp only [execBatch, hfind, if_pos]
    exact ih fs (fun e he => h e (List.mem_cons_of_mem _ he))

/-! Lemmas about the normalizer. -/

theorem parseBaseSep_length {sep : Char} {cs : List Char}
    {v : Nat × Nat × Nat × Nat × Nat × Nat}
    (h : parseBaseSep sep cs = some v) : cs.length = 19 := by
  unfold parseBaseSep at h
  split at h
  · rfl
  · cases h

theorem matchFrac_spec {cs f r : List Char} (h : matchFrac cs = (f, r)) :
    f = [] ∨ ∃ ds, f = '.' :: ds ∧ ds ≠ [] ∧ ∀ c ∈ ds, c.isDigit = true := by
  unfold matchFrac at h
  split at h
  · rename_i c rest
    split at h
    · rename_i hc
      rw [List.span_eq_take_drop] at h
      cases h
      right
      refine ⟨(c :: rest).takeWhile (fun x => x.isDigit), rfl, ?_, ?_⟩
      · rw [List.takeWhile_cons, if_pos hc]
        exact List.cons_ne_nil _ _
      · intro x hx
        exact List.mem_takeWhile_imp hx
    · cases h; left; rfl
  · cases h; left; rfl

theorem matchTz_spec {cs z r : List Char} (h : matchTz cs = (z, r)) :
    z = [] ∨ z = ['Z'] ∨ ∃ o, parseTzEnd z = some o := by
  unfold matchTz at h
  split at h
  · cases h; right; left; rfl
  · unfold matchTzNum at h
    split at h
    · split at h
      · rename_i hcond
        cases h
        right; right
        rw [← Option.isSome_iff_exists]
        simp [parseTzEnd, hcond]
      · cases h; left; rfl
    · cases h; left; rfl

/-- The structure of every string accepted by the normalizer: the reassembled
result is the base group, the 6-digit fraction and the normalized offset. -/
theorem toIso_ok_structure {cs r : List Char}
    (h : to_isoformat_with_microseconds cs = .ok r) :
    ∃ b f z rest, matchP2 (rewriteSep (pyStrip cs)) = some (b, f, z, rest) ∧
      r = b ++ (('.' :: ((f.drop 1) ++ ("000000").toList).take 6) ++
        (if z = ['Z'] ∨ z = [] then ("+00:00").toList else z)) := by
  unfold to_isoformat_with_microseconds at h
  dsimp only at h
  rcases hm : matchP2 (rewriteSep (pyStrip cs)) with _ | ⟨b, f, z, rest⟩
  · rw [hm] at h; cases h
  · rw [hm] at h
    dsimp only at h
    cases h
    refine ⟨b, f, z, rest, rfl, ?_⟩
    congr 1
    congr 1
    · by_cases hf : f = []
      · rw [if_pos hf, hf]
        rfl
      · rw [if_neg hf]
    · by_cases hz1 : z = ['Z']
      · rw [if_pos hz1, if_pos (Or.inl hz1)]
      · rw [if_neg hz1]
        by_cases hz2 : z = []
        · rw [if_pos hz2, if_pos (Or.inr hz2)]
        · rw [if_neg hz2, if_neg (by tauto)]

theorem fracDigits_length {f : List Char} :
    (((f.drop 1) ++ ("000000").toList).take 6).length = 6 := by
  rw [List.length_take]
  simp

theorem fracDigits_digits {f : List Char}
    (hf : f = [] ∨ ∃ ds, f = '.' :: ds ∧ ds ≠ [] ∧ ∀ c ∈ ds, c.isDigit = true) :
    ∀ c ∈ ((f.drop 1) ++ ("000000").toList).take 6, c.isDigit = true := by
  intro c hc
  have hc' := List.mem_of_mem_take hc
  rw [List.mem_append] at hc'
  rcases hc' with hc' | hc'
  · rcases hf with hf | ⟨ds, rfl, _, hds⟩
    · subst hf; simp at hc'
    · rw [List.drop_one, List.tail_cons] at hc'
      exact hds c hc'
  · fin_cases hc' <;> decide

/-- Computation of `fromisoformat` on a reassembled canonical string. -/
theorem fromisoformat_reassembled {b ds6 tz6 : List Char}
    {y mo d h mi s : Nat} {off : Int}
    (hb : parseBaseSep '-' b = some (y, mo, d, h, mi, s))
    (hlen : ds6.length = 6) (hdig : ∀ c ∈ ds6, c.isDigit = true)
    (htz : parseTzEnd tz6 = some off) :
    fromisoformat (b ++ (('.' :: ds6) ++ tz6)) =
      if fieldsInRange y mo d h mi s (decVal ds6) off then
        some ⟨y, mo, d, h, mi, s, decVal ds6, off⟩
      else none := by
  have hblen := parseBaseSep_length hb
  have htake : (b ++ (('.' :: ds6) ++ tz6)).take 19 = b := List.take_left' hblen
  have hdrop : (b ++ (('.' :: ds6) ++ tz6)).drop 19 = ('.' :: ds6) ++ tz6 :=
    List.drop_left' hblen
  have hlen7 : ('.' :: ds6).length = 7 := by simp [hlen]
  have htake7 : ((('.' :: ds6) ++ tz6)).take 7 = '.' :: ds6 := List.take_left' hlen7
  have hdrop26 : (b ++ (('.' :: ds6) ++ tz6)).drop 26 = tz6 := by
    have h1 : (b ++ (('.' :: ds6) ++ tz6)).drop 26 =
        ((b ++ (('.' :: ds6) ++ tz6)).drop 19).drop 7 := by
      rw [List.drop_drop]
    rw [h1, hdrop, List.drop_left' hlen7]
  have hfrac : parseFrac7 (('.' :: ds6)) = some (decVal ds6) := by
    simp [parseFrac7, hlen, List.all_eq_true.mpr hdig]
  unfold fromisoformat
  rw [htake, hdrop, htake7, hdrop26, hb, hfrac, htz]

/-- The groups of a successful `p2` match: the base parses with dashes, the
fraction is empty or dot-plus-digits, the timezone is empty, `Z`, or a
parseable numeric offset. -/
theorem matchP2_groups {cs b f z rest : List Char}
    (h : matchP2 cs = some (b, f, z, rest)) :
    b = cs.take 19 ∧ (∃ v, parseBaseSep '-' b = some v) ∧
    (f = [] ∨ ∃ ds, f = '.' :: ds ∧ ds ≠ [] ∧ ∀ c ∈ ds, c.isDigit = true) ∧
    (z = [] ∨ z = ['Z'] ∨ ∃ o, parseTzEnd z = some o) := by
  unfold matchP2 at h
  split at h
  · cases h
  · rename_i v heq
    dsimp only at h
    cases h
    refine ⟨rfl, ⟨v, heq⟩, ?_, ?_⟩
    · exact matchFrac_spec (Prod.mk.eta (p := matchFrac (cs.drop 19)))
    · exact matchTz_spec (Prod.mk.eta (p := matchTz (matchFrac (cs.drop 19)).2))

/-- Destructuring of a colon-separated base match: rewriting the separators
gives a dash-separated base with the same numeric fields, and the base starts
and ends with a digit. -/
theorem parseBaseSep_colon_facts {b : List Char}
    {v : Nat × Nat × Nat × Nat × Nat × Nat}
    (h : parseBaseSep ':' b = some v) :
    ∃ b', (∀ tail, rewriteSep (b ++ tail) = b' ++ tail) ∧
      parseBaseSep '-' b' = some v ∧ b'.length = 19 ∧
      (∃ c rest, b = c :: rest ∧ c.isDigit = true) ∧
      (∃ c, b.getLast? = some c ∧ c.isDigit = true) := by
  unfold parseBaseSep at h
  split at h
  · rename_i y1 y2 y3 y4 a mo1 mo2 b2 d1 d2 sp h1 h2 c mi1 mi2 e s1 s2
    split at h
    · rename_i hcond
      cases h
      simp only [Bool.and_eq_true, beq_iff_eq] at hcond
      obtain ⟨⟨⟨⟨⟨⟨⟨⟨⟨⟨⟨⟨⟨⟨⟨⟨⟨⟨hy1, hy2⟩, hy3⟩, hy4⟩, ha⟩, hmo1⟩, hmo2⟩,
        hb2⟩, hd1⟩, hd2⟩, hsp⟩, hh1⟩, hh2⟩, hc⟩, hmi1⟩, hmi2⟩, he⟩, hs1⟩, hs2⟩ := hcond
      subst ha hb2 hsp hc he
      refine ⟨[y1, y2, y3, y4, '-', mo1, mo2, '-', d1, d2, ' ', h1, h2, ':',
        mi1, mi2, ':', s1, s2], ?_, ?_, rfl, ⟨y1, _, rfl, hy1⟩, ⟨s2, rfl, hs2⟩⟩
      · intro tail
        simp [rewriteSep, hy1, hy2, hy3, hy4, hmo1, hmo2, hd1, hd2]
      · simp [parseBaseSep, hy1, hy2, hy3, hy4, hmo1, hmo2, hd1, hd2,
          hh1, hh2, hmi1, hmi2, hs1, hs2]
    · cases h
  · cases h

/-- The numeric-offset group ends with a digit and parses. -/
theorem matchTzNum_spec {cs t r : List Char} (h : matchTzNum cs = (t, r)) :
    t = [] ∨ ((∃ o, parseTzEnd t = some o) ∧
      ∃ c, t.getLast? = some c ∧ c.isDigit = true) := by
  unfold matchTzNum at h
  split at h
  · split at h
    · rename_i hcond
      cases h
      right
      constructor
      · rw [← Option.isSome_iff_exists]
        simp [parseTzEnd, hcond]
      · refine ⟨_, rfl, ?_⟩
        simp only [Bool.and_eq_true] at hcond
        exact hcond.2
    · cases h; left; rfl
  · cases h; left; rfl

theorem matchOptZ_spec {cs z r : List Char} (h : matchOptZ cs = (z, r)) :
    z = [] ∨ z = ['Z'] := by
  unfold matchOptZ at h
  split at h
  · cases h; right; rfl
  · cases h; left; rfl

/-- A string with a non-whitespace first and last character strips to itself. -/
theorem pyStrip_eq_self {cs : List Char} {c c' : Char}
    (hh : cs.head? = some c) (hw : isPyWs c = false)
    (hl : cs.getLast? = some c') (hw' : isPyWs c' = false) : pyStrip cs = cs := by
  unfold pyStrip
  have hd : cs.dropWhile isPyWs = cs := by
    cases cs with
    | nil => rfl
    | cons a l =>
      rw [List.head?_cons, Option.some.injEq] at hh
      subst hh
      rw [List.dropWhile_cons, if_neg (by rw [hw]; exact Bool.false_ne_true)]
  rw [hd]
  have hrev : cs.reverse.dropWhile isPyWs = cs.reverse := by
    cases hr : cs.reverse with
    | nil => rfl
    | cons a l =>
      have ha : cs.getLast? = some a := by
        rw [← List.head?_reverse, hr, List.head?_cons]
      rw [hl, Option.some.injEq] at ha
      subst ha
      rw [List.dropWhile_cons, if_neg (by rw [hw']; exact Bool.false_ne_true)]
  rw [hrev, List.reverse_reverse]

/-- The parts of a successful `p1` date-value match. -/
theorem p1Date_parts {cs ds rest : List Char} (h : p1Date cs = some (ds, rest)) :
    ∃ (b f t z : List Char) (v : Nat × Nat × Nat × Nat × Nat × Nat),
      parseBaseSep ':' b = some v ∧ ds = b ++ (f ++ (t ++ z)) ∧
      (f = [] ∨ ∃ ds', f = '.' :: ds' ∧ ds' ≠ [] ∧ ∀ c ∈ ds', c.isDigit = true) ∧
      (t = [] ∨ ((∃ o, parseTzEnd t = some o) ∧
        ∃ c, t.getLast? = some c ∧ c.isDigit = true)) ∧
      (z = [] ∨ z = ['Z']) := by
  unfold p1Date at h
  split at h
  · cases h
  · rename_i v heq
    dsimp only at h
    cases h
    refine ⟨cs.take 19, _, _, _, v, heq, rfl, ?_, ?_, ?_⟩
    · exact matchFrac_spec (Prod.mk.eta (p := matchFrac (cs.drop 19)))
    · exact matchTzNum_spec (Prod.mk.eta (p := matchTzNum (matchFrac (cs.drop 19)).2))
    · exact matchOptZ_spec
        (Prod.mk.eta (p := matchOptZ (matchTzNum (matchFrac (cs.drop 19)).2).2))

theorem matchP2_isSome_of_base {cs : List Char}
    {v : Nat × Nat × Nat × Nat × Nat × Nat}
    (h : parseBaseSep '-' (cs.take 19) = some v) :
    ∃ g, matchP2 cs = some g := by
  unfold matchP2
  rw [h]
  exact ⟨_, rfl⟩

theorem toIso_isOk_of_matchP2 {cs : List Char}
    {g : List Char × List Char × List Char × List Char}
    (h : matchP2 (rewriteSep (pyStrip cs)) = some g) :
    ∃ out, to_isoformat_with_microseconds cs = .ok out := by
  obtain ⟨b, f, z, r⟩ := g
  unfold to_isoformat_with_microseconds
  dsimp only
  rw [h]
  exact ⟨_, rfl⟩

/-- A decimal digit is not Python whitespace. -/
theorem isPyWs_false_of_digit {x : Char} (hx : x.isDigit = true) :
    isPyWs x = false := by
  have hne : ∀ c : Char, c.isDigit = false → (x == c) = false := by
    intro c hc
    rcases Bool.eq_false_or_eq_true (x == c) with h | h
    · rw [beq_iff_eq] at h
      subst h
      rw [hx] at hc
      cases hc
    · exact h
  simp [isPyWs, hne ' ' (by decide), hne '\t' (by decide), hne '\n' (by decide),
    hne '\r' (by decide), hne '\x0b' (by decide), hne '\x0c' (by decide)]

/-- The last element of a nonempty list is an element satisfying any property
its members satisfy; stated via `getLast?`. -/
theorem getLast?_digit_of_all {l : List Char} (hne : l ≠ [])
    (hall : ∀ c ∈ l, c.isDigit = true) :
    ∃ c, l.getLast? = some c ∧ c.isDigit = true := by
  cases hg : l.getLast? with
  | none => exact absurd (List.getLast?_eq_none_iff.mp hg) hne
  | some c => exact ⟨c, rfl, hall c (List.mem_of_getLast?_eq_some hg)⟩

/-- Every date value matched by `p1` is accepted by the normalizer: its base
is colon-separated, strips to itself, rewrites to the dashed base, and the
dashed base passes the `p2` shape check. -/
theorem p1Date_toIso {cs ds rest : List Char} (h : p1Date cs = some (ds, rest)) :
    ∃ out, to_isoformat_with_microseconds ds = .ok out := by
  obtain ⟨b, f, t, z, v, hb, rfl, hf, ht, hz⟩ := p1Date_parts h
  obtain ⟨b', hrw, hb', hlen', ⟨c0, brest, hbc, hc0⟩, ⟨cl, hcl, hcld⟩⟩ :=
    parseBaseSep_colon_facts hb
  have hhead : (b ++ (f ++ (t ++ z))).head? = some c0 := by
    rw [hbc]; rfl
  have hlast : ∃ ce, (b ++ (f ++ (t ++ z))).getLast? = some ce ∧
      isPyWs ce = false := by
    have hchain : (b ++ (f ++ (t ++ z))).getLast? =
        ((z.getLast?.or t.getLast?).or f.getLast?).or b.getLast? := by
      simp [List.getLast?_append]
    rcases hz with rfl | rfl
    · rcases ht with rfl | ⟨_, ⟨ct, hct, hctd⟩⟩
      · rcases hf with rfl | ⟨ds', rfl, hne, hdig⟩
        · refine ⟨cl, ?_, isPyWs_false_of_digit hcld⟩
          rw [hchain, hcl]
          rfl
        · obtain ⟨cf, hcf, hcfd⟩ := getLast?_digit_of_all hne hdig
          refine ⟨cf, ?_, isPyWs_false_of_digit hcfd⟩
          rw [hchain]
          have : ('.' :: ds').getLast? = some cf := by
            cases ds' with
            | nil => exact absurd rfl hne
            | cons a l => rw [List.getLast?_cons_cons]; exact hcf
          rw [this]
          rfl
      · refine ⟨ct, ?_, isPyWs_false_of_digit hctd⟩
        rw [hchain, hct]
        rfl
    · refine ⟨'Z', ?_, by decide⟩
      rw [hchain]
      rfl
  obtain ⟨ce, hce, hcew⟩ := hlast
  have hstrip : pyStrip (b ++ (f ++ (t ++ z))) = b ++ (f ++ (t ++ z)) :=
    pyStrip_eq_self hhead (isPyWs_false_of_digit hc0) hce hcew
  have hbase : parseBaseSep '-' ((b' ++ (f ++ (t ++ z))).take 19) = some v := by
    rw [List.take_left' hlen']
    exact hb'
  obtain ⟨g, hg⟩ := matchP2_isSome_of_base hbase
  apply toIso_isOk_of_matchP2 (g := g)
  rw [hstrip, hrw (f ++ (t ++ z))]
  exact hg

/-- A `p1` match's date string comes from a successful `p1Date` parse. -/
theorem matchP1_p1Date {cs lab ds rest : List Char}
    (h : matchP1 cs = some (lab, ds, rest)) :
    ∃ r', p1Date r' = some (ds, rest) := by
  unfold matchP1 at h
  split at h
  · cases h
  · dsimp only at h
    split at h
    · cases h
    · split at h
      · cases h
      · rename_i heq
        cases h
        exact ⟨_, heq⟩

/-- Every candidate produced by the metadata scanner is accepted by the
normalizer (for any fuel). -/
theorem scanFuel_mem_toIso : ∀ (fuel : Nat) (cs lab ds : List Char),
    (lab, ds) ∈ scanFuel fuel cs →
    ∃ out, to_isoformat_with_microseconds ds = .ok out := by
  intro fuel
  induction fuel with
  | zero => intro cs lab ds h; simp [scanFuel] at h
  | succ fuel ih =>
    intro cs lab ds h
    unfold scanFuel at h
    rcases hm : matchP1 cs with _ | ⟨lab', ds', rest⟩
    · rw [hm] at h
      exact ih _ _ _ h
    · rw [hm] at h
      rcases List.mem_cons.mp h with heq | hmem
      · cases heq
        obtain ⟨r', hr'⟩ := matchP1_p1Date hm
        exact p1Date_toIso hr'
      · exact ih _ _ _ hmem

/-- The candidate loop agrees with the total per-candidate fold whenever the
normalizer accepts every candidate: it then never aborts. -/
theorem parseCands_eq_buildDict : ∀ (cands : List (List Char × List Char)) (d : Dict),
    (∀ p ∈ cands, ∃ out, to_isoformat_with_microseconds p.2 = .ok out) →
    parseCands cands d = .ok (buildDict cands d) := by
  intro cands
  induction cands with
  | nil => intro d _; rfl
  | cons p rest ih =>
    intro d hall
    obtain ⟨lab, ds⟩ := p
    obtain ⟨out, hout⟩ := hall (lab, ds) (List.mem_cons_self _ _)
    simp only at hout
    have hnorm : normalize ds = fromisoformat out := by
      unfold normalize
      rw [hout]
    unfold parseCands buildDict
    simp only [hout, hnorm]
    cases fromisoformat out with
    | none => exact ih d (fun q hq => hall q (List.mem_cons_of_mem _ hq))
    | some dt => exact ih _ (fun q hq => hall q (List.mem_cons_of_mem _ hq))

/-- `parse_exif_data` never raises through the scan: the normalization of a
matched candidate can only fail at the field-range check, which is caught. -/
theorem parse_exif_data_eq_buildDict (text : List Char) :
    parse_exif_data text = .ok (buildDict (scan text) []) := by
  apply parseCands_eq_buildDict
  intro p hp
  obtain ⟨lab, ds⟩ := p
  exact scanFuel_mem_toIso _ _ _ _ hp

/-- Dropping one failing candidate: the fold simply skips it. -/
theorem buildDict_drop {lab ds : List Char}
    (hbad : normalize ds = none) :
    ∀ (pre post : List (List Char × List Char)) (d : Dict),
      buildDict (pre ++ (lab, ds) :: post) d = buildDict (pre ++ post) d := by
  intro pre
  induction pre with
  | nil =>
    intro post d
    simp only [List.nil_append, buildDict, hbad]
  | cons q pre ih =>
    intro post d
    obtain ⟨l, s⟩ := q
    simp only [List.cons_append, buildDict]
    cases normalize s with
    | none => exact ih post d
    | some dt => exact ih post _

/-! Lemmas about the labeled timestamp set and the resolver. -/

theorem lookupK_cons {β : Type} (k' : List Char) (v : β)
    (rest : List (List Char × β)) (k : List Char) :
    lookupK ((k', v) :: rest) k = if k' = k then some v else lookupK rest k := rfl

theorem upsert_cons {β : Type} (k' : List Char) (v' : β)
    (rest : List (List Char × β)) (k : List Char) (v : β) :
    upsert ((k', v') :: rest) k v =
      if k' = k then (k, v) :: rest else (k', v') :: upsert rest k v := rfl

theorem lookupK_eq_none {β : Type} {d : List (List Char × β)} {k : List Char} :
    lookupK d k = none ↔ k ∉ d.map Prod.fst := by
  induction d with
  | nil =>
    constructor
    · intro _ h
      exact (List.not_mem_nil k) h
    · intro _
      rfl
  | cons p rest ih =>
    obtain ⟨k', v⟩ := p
    rw [lookupK_cons, List.map_cons, List.mem_cons]
    by_cases hk : k' = k
    · rw [if_pos hk]
      constructor
      · intro h
        cases h
      · intro h
        exact absurd (Or.inl hk.symm) h
    · rw [if_neg hk, ih]
      constructor
      · intro h
        rintro (h' | h')
        · exact hk h'.symm
        · exact h h'
      · intro h h'
        exact h (Or.inr h')

theorem lookupK_some_iff_mem {β : Type} {d : List (List Char × β)}
    (hnd : (d.map Prod.fst).Nodup) {k : List Char} {v : β} :
    lookupK d k = some v ↔ (k, v) ∈ d := by
  induction d with
  | nil =>
    constructor
    · intro h
      cases h
    · intro h
      exact absurd h (List.not_mem_nil _)
  | cons p rest ih =>
    obtain ⟨k', v'⟩ := p
    rw [List.map_cons, List.nodup_cons] at hnd
    rw [lookupK_cons, List.mem_cons]
    by_cases hk : k' = k
    · subst hk
      rw [if_pos rfl]
      constructor
      · intro h
        rw [Option.some.injEq] at h
        exact Or.inl (by rw [h])
      · rintro (h | h)
        · rw [(Prod.mk.injEq _ _ _ _).mp h.symm |>.2]
        · exact absurd (List.mem_map.mpr ⟨(k', v), h, rfl⟩) hnd.1
    · rw [if_neg hk, ih hnd.2]
      constructor
      · intro h
        exact Or.inr h
      · rintro (h | h)
        · exact absurd ((Prod.mk.injEq _ _ _ _).mp h.symm).1 (fun he => hk he)
        · exact h

theorem lookupK_perm {β : Type} {d d' : List (List Char × β)}
    (hp : d.Perm d') (hnd : (d.map Prod.fst).Nodup) (k : List Char) :
    lookupK d k = lookupK d' k := by
  have hnd' : (d'.map Prod.fst).Nodup := (hp.map Prod.fst).nodup_iff.mp hnd
  cases h : lookupK d k with
  | none =>
    cases h' : lookupK d' k with
    | none => rfl
    | some v =>
      exfalso
      have hm := (lookupK_some_iff_mem hnd' (k := k) (v := v)).mp h'
      have hc : lookupK d k = some v :=
        (lookupK_some_iff_mem hnd (k := k) (v := v)).mpr (hp.mem_iff.mpr hm)
      rw [h] at hc
      cases hc
  | some v =>
    have hm := (lookupK_some_iff_mem hnd (k := k) (v := v)).mp h
    exact ((lookupK_some_iff_mem hnd' (k := k) (v := v)).mpr
      (hp.mem_iff.mp hm)).symm

theorem upsert_keys_mem {β : Type} {d : List (List Char × β)}
    {k x : List Char} {v : β}
    (h : x ∈ (upsert d k v).map Prod.fst) : x = k ∨ x ∈ d.map Prod.fst := by
  induction d with
  | nil =>
    rw [show upsert ([] : List (List Char × β)) k v = [(k, v)] from rfl] at h
    rcases List.mem_cons.mp h with h' | h'
    · exact Or.inl h'
    · exact absurd h' (List.not_mem_nil _)
  | cons p rest ih =>
    obtain ⟨k', v'⟩ := p
    rw [upsert_cons] at h
    by_cases hk : k' = k
    · rw [if_pos hk, List.map_cons] at h
      rcases List.mem_cons.mp h with h' | h'
      · exact Or.inl h'
      · exact Or.inr (List.mem_cons_of_mem _ h')
    · rw [if_neg hk, List.map_cons] at h
      rcases List.mem_cons.mp h with h' | h'
      · subst h'
        exact Or.inr (by rw [List.map_cons]; exact List.mem_cons_self _ _)
      · rcases ih h' with h'' | h''
        · exact Or.inl h''
        · exact Or.inr (List.mem_cons_of_mem _ h'')

theorem upsert_nodupKeys {β : Type} {d : List (List Char × β)}
    (hnd : (d.map Prod.fst).Nodup) (k : List Char) (v : β) :
    ((upsert d k v).map Prod.fst).Nodup := by
  induction d with
  | nil =>
    rw [show upsert ([] : List (List Char × β)) k v = [(k, v)] from rfl]
    exact List.nodup_singleton _
  | cons p rest ih =>
    obtain ⟨k', v'⟩ := p
    rw [List.map_cons, List.nodup_cons] at hnd
    rw [upsert_cons]
    by_cases hk : k' = k
    · rw [if_pos hk, List.map_cons, List.nodup_cons]
      subst hk
      exact hnd
    · rw [if_neg hk, List.map_cons, List.nodup_cons]
      refine ⟨?_, ih hnd.2⟩
      intro hmem
      rcases upsert_keys_mem hmem with h | h
      · exact hk h
      · exact hnd.1 h

/-- The labeled timestamp set built from any candidate list has unique
labels (Python dict semantics). -/
theorem buildDict_nodupKeys : ∀ (cands : List (List Char × List Char)) (d : Dict),
    (d.map Prod.fst).Nodup → ((buildDict cands d).map Prod.fst).Nodup := by
  intro cands
  induction cands with
  | nil => intro d h; exact h
  | cons p rest ih =>
    intro d h
    obtain ⟨lab, ds⟩ := p
    simp only [buildDict]
    cases normalize ds with
    | none => exact ih d h
    | some dt => exact ih _ (upsert_nodupKeys h _ _)

/-- The resolver only looks labels up, so it is invariant under permutation
of a uniquely-labeled set. -/
theorem priority_resolve_perm {d d' : Dict} (hnd : (d.map Prod.fst).Nodup)
    (hp : d.Perm d') : priority_resolve d = priority_resolve d' := by
  unfold priority_resolve
  by_cases hd : d = []
  · subst hd
    rw [if_pos rfl, if_pos hp.symm.eq_nil]
  · have hd' : d' ≠ [] := by
      intro h
      subst h
      exact hd hp.eq_nil
    rw [if_neg hd, if_neg hd']
    have harg : (fun f => lookupK d f) = (fun f => lookupK d' f) :=
      funext (lookupK_perm hp hnd)
    rw [harg]

theorem toIso_eq_of_matchP2 {cs b f z rest : List Char}
    (hm : matchP2 (rewriteSep (pyStrip cs)) = some (b, f, z, rest)) :
    to_isoformat_with_microseconds cs =
      .ok (b ++ (('.' :: fracDigitsOf f) ++ tzStrOf z)) := by
  unfold to_isoformat_with_microseconds
  dsimp only
  rw [hm]
  dsimp only
  have hfrac : (if f = [] then '.' :: ("000000").toList
      else '.' :: ((f.drop 1) ++ ("000000").toList).take 6) =
      '.' :: fracDigitsOf f := by
    unfold fracDigitsOf
    by_cases hf : f = []
    · rw [if_pos hf, hf]
      rfl
    · rw [if_neg hf]
  have htzs : (if z = ['Z'] then ("+00:00").toList
      else if z = [] then ("+00:00").toList else z) = tzStrOf z := by
    unfold tzStrOf
    by_cases hz1 : z = ['Z']
    · rw [if_pos hz1, if_pos (Or.inl hz1)]
    · rw [if_neg hz1]
      by_cases hz2 : z = []
      · rw [if_pos hz2, if_pos (Or.inr hz2)]
      · rw [if_neg hz2, if_neg (by tauto)]
  rw [hfrac, htzs]

theorem parseTzEnd_tzStrOf {z : List Char}
    (hz : z = [] ∨ z = ['Z'] ∨ ∃ o, parseTzEnd z = some o) :
    parseTzEnd (tzStrOf z) = some (offValOf z) := by
  rcases hz with rfl | rfl | ⟨o, ho⟩
  · decide
  · decide
  · have hz1 : z ≠ ['Z'] := by
      intro he
      rw [he] at ho
      cases ho
    have hz2 : z ≠ [] := by
      intro he
      rw [he] at ho
      cases ho
    unfold tzStrOf offValOf
    rw [if_neg (by tauto), if_neg (by tauto), ho]

/-- The three structural parses of `fromisoformat` succeed on every
reassembled canonical string. -/
theorem reassembled_parses {b ds6 tz6 : List Char}
    {y mo d h mi s : Nat} {off : Int}
    (hb : parseBaseSep '-' b = some (y, mo, d, h, mi, s))
    (hlen : ds6.length = 6) (hdig : ∀ c ∈ ds6, c.isDigit = true)
    (htz : parseTzEnd tz6 = some off) :
    parseBaseSep '-' ((b ++ (('.' :: ds6) ++ tz6)).take 19) =
      some (y, mo, d, h, mi, s) ∧
    parseFrac7 (((b ++ (('.' :: ds6) ++ tz6)).drop 19).take 7) =
      some (decVal ds6) ∧
    parseTzEnd ((b ++ (('.' :: ds6) ++ tz6)).drop 26) = some off := by
  have hblen := parseBaseSep_length hb
  have htake : (b ++ (('.' :: ds6) ++ tz6)).take 19 = b := List.take_left' hblen
  have hdrop : (b ++ (('.' :: ds6) ++ tz6)).drop 19 = ('.' :: ds6) ++ tz6 :=
    List.drop_left' hblen
  have hlen7 : ('.' :: ds6).length = 7 := by simp [hlen]
  have hdrop26 : (b ++ (('.' :: ds6) ++ tz6)).drop 26 = tz6 := by
    have h1 : (b ++ (('.' :: ds6) ++ tz6)).drop 26 =
        ((b ++ (('.' :: ds6) ++ tz6)).drop 19).drop 7 := by
      rw [List.drop_drop]
    rw [h1, hdrop, List.drop_left' hlen7]
  refine ⟨by rw [htake]; exact hb, ?_, by rw [hdrop26]; exact htz⟩
  rw [hdrop, List.take_left' hlen7]
  simp [parseFrac7, hlen, List.all_eq_true.mpr hdig]

/-! The claims. -/

/-- C3: Normalizer postcondition on fraction and timezone.  For every raw
string accepted by `normalize`, a present fractional-seconds group is stripped
of its dot and right-padded with zeros to exactly 6 digits (truncated if
longer) to give the microseconds, an absent group gives microseconds 0; a
literal `Z` or an absent timezone yields offset `+00:00` while an explicit
`+HH:MM`/`-HH:MM` is preserved verbatim.  In particular
`normalize("2024:03:31 14:38:15.29Z")` yields micros 290000 and offset
`+00:00`, and `normalize("2024:04:01 05:36:42+02:00")` yields micros 0 and
offset `+02:00`. -/
theorem claim_C3 :
    (∀ cs b f z rest : List Char,
      matchP2 (rewriteSep (pyStrip cs)) = some (b, f, z, rest) →
      to_isoformat_with_microseconds cs =
        .ok (b ++ (('.' :: fracDigitsOf f) ++ tzStrOf z)) ∧
      ∀ dt, normalize cs = some dt →
        dt.microsecond = decVal (fracDigitsOf f) ∧
        dt.offsetMinutes = offValOf z) ∧
    normalize ("2024:03:31 14:38:15.29Z").toList =
      some ⟨2024, 3, 31, 14, 38, 15, 290000, 0⟩ ∧
    normalize ("2024:04:01 05:36:42+02:00").toList =
      some ⟨2024, 4, 1, 5, 36, 42, 0, 120⟩ := by
  refine ⟨?_, by decide, by decide⟩
  intro cs b f z rest hm
  have hiso := toIso_eq_of_matchP2 hm
  refine ⟨hiso, ?_⟩
  intro dt hdt
  unfold normalize at hdt
  rw [hiso] at hdt
  dsimp only at hdt
  obtain ⟨hbq, ⟨v, hv⟩, hfspec, hzspec⟩ := matchP2_groups hm
  obtain ⟨y, mo, d, h, mi, sec⟩ := v
  have hlen : (fracDigitsOf f).length = 6 := fracDigits_length
  have hdig : ∀ c ∈ fracDigitsOf f, c.isDigit = true := fracDigits_digits hfspec
  have htzv : parseTzEnd (tzStrOf z) = some (offValOf z) := parseTzEnd_tzStrOf hzspec
  have hfi := fromisoformat_reassembled hv hlen hdig htzv
  rw [hfi] at hdt
  by_cases hr : fieldsInRange y mo d h mi sec (decVal (fracDigitsOf f)) (offValOf z)
  · rw [if_pos hr, Option.some.injEq] at hdt
    rw [← hdt]
    exact ⟨rfl, rfl⟩
  · rw [if_neg hr] at hdt
    cases hdt

/-- C3 witness: the general part instantiated at the raw string
`2024:03:31 14:38:15.29Z`. -/
theorem claim_C3_witness :
    to_isoformat_with_microseconds ("2024:03:31 14:38:15.29Z").toList =
      .ok ((("2024-03-31 14:38:15").toList) ++
        (('.' :: fracDigitsOf ('.' :: ("29").toList)) ++ tzStrOf ['Z'])) :=
  (claim_C3.1 (("2024:03:31 14:38:15.29Z").toList) (("2024-03-31 14:38:15").toList)
    ('.' :: ("29").toList) ['Z'] [] (by decide)).1

/-- C5 (amended): for every raw string that passes the normalizer's pattern
match, the reassembled canonical string is structurally well formed — all
three component parses (base date-time fields, 6-digit fraction, offset)
succeed — and `fromisoformat` on it fails exactly when the parsed fields are
out of range (the range check of the `datetime`/`timezone` constructors); the
parse-failure branch is therefore reachable, but only for out-of-range field
values, and it is caught (`except ValueError: pass`), never surfaced as a
user-facing `FormatError`. -/
theorem claim_C5 : ∀ cs r : List Char,
    to_isoformat_with_microseconds cs = .ok r →
    ∃ y mo d h mi s us off,
      parseBaseSep '-' (r.take 19) = some (y, mo, d, h, mi, s) ∧
      parseFrac7 ((r.drop 19).take 7) = some us ∧
      parseTzEnd (r.drop 26) = some off ∧
      fromisoformat r =
        (if fieldsInRange y mo d h mi s us off then
          some ⟨y, mo, d, h, mi, s, us, off⟩ else none) := by
  intro cs r hr
  obtain ⟨b, f, z, rest, hm, hrs⟩ := toIso_ok_structure hr
  obtain ⟨hbq, ⟨v, hv⟩, hfspec, hzspec⟩ := matchP2_groups hm
  obtain ⟨y, mo, d, h, mi, sec⟩ := v
  have hlen : (fracDigitsOf f).length = 6 := fracDigits_length
  have hdig : ∀ c ∈ fracDigitsOf f, c.isDigit = true := fracDigits_digits hfspec
  have htzv : parseTzEnd (tzStrOf z) = some (offValOf z) := parseTzEnd_tzStrOf hzspec
  have hparts := reassembled_parses hv hlen hdig htzv
  have hfi := fromisoformat_reassembled hv hlen hdig htzv
  subst hrs
  exact ⟨y, mo, d, h, mi, sec, decVal (fracDigitsOf f), offValOf z,
    hparts.1, hparts.2.1, hparts.2.2, hfi⟩

/-- C5 counterexample: the raw string `2024:13:01 00:00:00` passes the
pattern match (the normalizer reassembles it), yet the reassembled string
does not parse — month 13 is rejected by the field-range check — so the
parse-failure branch after reassembly is reachable. -/
theorem claim_C5_counterexample :
    to_isoformat_with_microseconds ("2024:13:01 00:00:00").toList =
      .ok (("2024-13-01 00:00:00.000000+00:00").toList) ∧
    fromisoformat (("2024-13-01 00:00:00.000000+00:00").toList) = none ∧
    normalize ("2024:13:01 00:00:00").toList = none := by
  refine ⟨by decide, by decide, by decide⟩

/-- C5 witness: the amended claim instantiated at `2024:01:02 03:04:05`. -/
theorem claim_C5_witness :
    ∃ y mo d h mi s us off,
      parseBaseSep '-' ((("2024-01-02 03:04:05.000000+00:00").toList).take 19) =
        some (y, mo, d, h, mi, s) ∧
      parseFrac7 (((("2024-01-02 03:04:05.000000+00:00").toList).drop 19).take 7) =
        some us ∧
      parseTzEnd ((("2024-01-02 03:04:05.000000+00:00").toList).drop 26) = some off ∧
      fromisoformat (("2024-01-02 03:04:05.000000+00:00").toList) =
        (if fieldsInRange y mo d h mi s us off then
          some ⟨y, mo, d, h, mi, s, us, off⟩ else none) :=
  claim_C5 (("2024:01:02 03:04:05").toList)
    (("2024-01-02 03:04:05.000000+00:00").toList) (by decide)

/-- C6: `normalize` raises `FormatError` exactly when, after stripping and
rewriting the leading colon separators to dashes, the input does not match
the `p2` pattern; in particular `normalize("not a date")` fails with
`FormatError`, and the model admits no other error kind. -/
theorem claim_C6 :
    (∀ cs : List Char, to_isoformat_with_microseconds cs = .error () ↔
      matchP2 (rewriteSep (pyStrip cs)) = none) ∧
    to_isoformat_with_microseconds ("not a date").toList = .error () := by
  constructor
  · intro cs
    constructor
    · intro h
      rcases hm : matchP2 (rewriteSep (pyStrip cs)) with _ | g
      · rfl
      · exfalso
        obtain ⟨out, hout⟩ := toIso_isOk_of_matchP2 hm
        rw [hout] at h
        cases h
    · intro h
      unfold to_isoformat_with_microseconds
      dsimp only
      rw [h]
  · decide

/-- C9 (implicit): the shape check of the normalizer is a prefix match.  The
normalizer succeeds if and only if the first 19 characters of the
separator-normalized input form a valid base, so any trailing characters
after the matched prefix are ignored rather than causing a `FormatError`;
e.g. a valid datetime followed by arbitrary junk is accepted. -/
theorem claim_C9 :
    (∀ cs : List Char, exceptOk (to_isoformat_with_microseconds cs) =
      (parseBaseSep '-' ((rewriteSep (pyStrip cs)).take 19)).isSome) ∧
    to_isoformat_with_microseconds
      ("2024:01:02 03:04:05 arbitrary trailing junk").toList =
      .ok (("2024-01-02 03:04:05.000000+00:00").toList) := by
  constructor
  · intro cs
    rcases hb : parseBaseSep '-' ((rewriteSep (pyStrip cs)).take 19) with _ | v
    · have hm : matchP2 (rewriteSep (pyStrip cs)) = none := by
        unfold matchP2
        rw [hb]
      unfold to_isoformat_with_microseconds
      dsimp only
      rw [hm]
      rfl
    · obtain ⟨g, hg⟩ := matchP2_isSome_of_base hb
      obtain ⟨out, hout⟩ := toIso_isOk_of_matchP2 hg
      rw [hout]
      rfl
  · decide

/-- C7: Single-candidate recovery while building the labeled timestamp set.
For every metadata text the candidate loop never aborts — it equals the total
fold that inserts each matched candidate whose normalization pipeline
succeeds — and a candidate whose normalization fails is silently dropped
while every other candidate is still processed. -/
theorem claim_C7 :
    (∀ text : List Char, parse_exif_data text = .ok (buildDict (scan text) [])) ∧
    (∀ (pre post : List (List Char × List Char)) (lab ds : List Char) (d0 : Dict),
      normalize ds = none →
      buildDict (pre ++ (lab, ds) :: post) d0 = buildDict (pre ++ post) d0) := by
  constructor
  · exact parse_exif_data_eq_buildDict
  · intro pre post lab ds d0 hbad
    exact buildDict_drop hbad pre post d0

/-- C7 witness: a two-candidate metadata text whose first candidate has an
out-of-range month; the scan does not abort and the bad candidate alone is
dropped. -/
theorem claim_C7_witness :
    parse_exif_data ("A: 2024:13:01 00:00:00\nB: 2024:01:01 00:00:00").toList =
      .ok (buildDict (scan ("A: 2024:13:01 00:00:00\nB: 2024:01:01 00:00:00").toList) []) ∧
    buildDict ([] ++ ((("A").toList, ("2024:13:01 00:00:00").toList) ::
        [(("B").toList, ("2024:01:01 00:00:00").toList)])) [] =
      buildDict ([] ++ [(("B").toList, ("2024:01:01 00:00:00").toList)]) [] :=
  ⟨claim_C7.1 _,
   claim_C7.2 [] [(("B").toList, ("2024:01:01 00:00:00").toList)]
     (("A").toList) (("2024:13:01 00:00:00").toList) [] (by decide)⟩

/-- C2: Resolver priority.  Labeled timestamp sets built from metadata have
unique labels; the resolver is invariant under permutation of such a set; it
returns the binding of the first priority label present (all earlier priority
labels absent); and it returns `none` when no listed label is present, even
if other, unlisted labels exist. -/
theorem claim_C2 :
    (∀ text : List Char, ((buildDict (scan text) []).map Prod.fst).Nodup) ∧
    (∀ d d' : Dict, (d.map Prod.fst).Nodup → d.Perm d' →
      priority_resolve d = priority_resolve d') ∧
    (∀ (d : Dict) (pre : List (List Char)) (f : List Char)
        (post : List (List Char)) (v : PyDateTime),
      fields_priority = pre ++ f :: post →
      (∀ g ∈ pre, lookupK d g = none) →
      lookupK d f = some v →
      priority_resolve d = some v) ∧
    (∀ d : Dict, (∀ f ∈ fields_priority, lookupK d f = none) →
      priority_resolve d = none) := by
  refine ⟨?_, ?_, ?_, ?_⟩
  · intro text
    exact buildDict_nodupKeys (scan text) [] (by simp)
  · intro d d' hnd hp
    exact priority_resolve_perm hnd hp
  · intro d pre f post v hfp hpre hf
    unfold priority_resolve
    have hd : d ≠ [] := by
      intro h
      subst h
      cases hf
    rw [if_neg hd, hfp, List.findSome?_append]
    have h1 : pre.findSome? (fun g => lookupK d g) = none :=
      List.findSome?_eq_none_iff.mpr hpre
    rw [h1, List.findSome?_cons, hf]
    rfl
  · intro d hall
    unfold priority_resolve
    by_cases hd : d = []
    · rw [if_pos hd]
    · rw [if_neg hd]
      exact List.findSome?_eq_none_iff.mpr hall

/-- C2 witness: a set holding both `Modify Date` (T1) and
`Date/Time Original` (T2) resolves to T2 in either iteration order, and a set
with only an unlisted label resolves to `none`. -/
theorem claim_C2_witness :
    priority_resolve
        [(("Modify Date").toList, ⟨2024, 1, 1, 0, 0, 0, 0, 0⟩),
         (("Date/Time Original").toList, ⟨2024, 3, 31, 14, 38, 15, 290000, 0⟩)] =
      priority_resolve
        [(("Date/Time Original").toList, ⟨2024, 3, 31, 14, 38, 15, 290000, 0⟩),
         (("Modify Date").toList, ⟨2024, 1, 1, 0, 0, 0, 0, 0⟩)] ∧
    priority_resolve
        [(("Modify Date").toList, ⟨2024, 1, 1, 0, 0, 0, 0, 0⟩),
         (("Date/Time Original").toList, ⟨2024, 3, 31, 14, 38, 15, 290000, 0⟩)] =
      some ⟨2024, 3, 31, 14, 38, 15, 290000, 0⟩ ∧
    priority_resolve [(("Weird Custom Tag").toList, ⟨2024, 1, 1, 0, 0, 0, 0, 0⟩)] =
      none :=
  ⟨claim_C2.2.1 _ _ (by decide) (by decide),
   claim_C2.2.2.1 _ [] (("Date/Time Original").toList)
     [("Creation Date").toList, ("Media Create Date").toList,
      ("Track Create Date").toList, ("Create Date").toList,
      ("Date Created").toList, ("Modify Date").toList,
      ("File Modification Date/Time").toList]
     ⟨2024, 3, 31, 14, 38, 15, 290000, 0⟩ rfl (by decide) (by decide),
   claim_C2.2.2.2 _ (by decide)⟩

/-- C10 (implicit): the case-insensitive extension filter.  A file is
admitted exactly when its lowercased name ends with one of `.heic`, `.mov`,
`.jpeg`, `.jpg`, `.mp4`, `.png`, `.webp`; uppercase or mixed-case extensions
such as `.JPG` or `.Heic` are admitted, anything else is not; and the walk
loop's result is unchanged when the non-admitted files are removed up front,
so non-admitted files are skipped before metadata extraction. -/
theorem claim_C10 :
    (∀ f : Path, admitted f = true ↔
      ((".heic").toList.isSuffixOf (pyLower f) = true ∨
       (".mov").toList.isSuffixOf (pyLower f) = true ∨
       (".jpeg").toList.isSuffixOf (pyLower f) = true ∨
       (".jpg").toList.isSuffixOf (pyLower f) = true ∨
       (".mp4").toList.isSuffixOf (pyLower f) = true ∨
       (".png").toList.isSuffixOf (pyLower f) = true ∨
       (".webp").toList.isSuffixOf (pyLower f) = true)) ∧
    (∀ (files : List (Path × Path)) (oracle : Path → Except Unit (Option PyDateTime)),
      parse_loop files oracle =
        parse_loop (files.filter (fun rf => admitted rf.2)) oracle) ∧
    admitted ("photo.JPG").toList = true ∧
    admitted ("clip.Heic").toList = true ∧
    admitted ("notes.txt").toList = false := by
  refine ⟨?_, ?_, by decide, by decide, by decide⟩
  · intro f
    unfold admitted supported_exts
    simp only [List.any_cons, List.any_nil, Bool.or_eq_true, Bool.false_eq_true,
      or_false]
  · intro files oracle
    unfold parse_loop
    exact foldl_parseStep_filter oracle files ([], [])

/-- C8: batch fault tolerance.  In the walk loop, a file whose metadata
extraction fails (oracle error) or whose date resolution yields no date (so
`date_to_str(None)` raises, caught by the bare `except:`) is logged and
excluded from the rename plan, and the dict of every remaining file is
exactly as if the failing file were absent: no per-file failure aborts the
batch. -/
theorem claim_C8 : ∀ (oracle : Path → Except Unit (Option PyDateTime))
    (pre : List (Path × Path)) (rf : Path × Path) (post : List (Path × Path)),
    admitted rf.2 = true →
    (oracle (fpOf rf) = .error () ∨ oracle (fpOf rf) = .ok none) →
    (parse_loop (pre ++ rf :: post) oracle).1 =
      (parse_loop (pre ++ post) oracle).1 ∧
    fpOf rf ∈ (parse_loop (pre ++ rf :: post) oracle).2 := by
  intro oracle pre rf post ha hf
  exact parse_loop_skip ha hf pre post

/-- C8 witness: the spec's three-file scenario — `t/a.jpg` and `t/b.jpg`
carry dates, `t/c.jpg` fails extraction; the failing file is logged and the
rename plan equals the plan for the two good files alone. -/
theorem claim_C8_witness :
    (parse_loop [(("t").toList, ("a.jpg").toList), (("t").toList, ("b.jpg").toList),
        (("t").toList, ("c.jpg").toList)] sampleOracle).1 =
      (parse_loop [(("t").toList, ("a.jpg").toList), (("t").toList, ("b.jpg").toList)]
        sampleOracle).1 ∧
    fpOf ((("t").toList, ("c.jpg").toList)) ∈
      (parse_loop [(("t").toList, ("a.jpg").toList), (("t").toList, ("b.jpg").toList),
        (("t").toList, ("c.jpg").toList)] sampleOracle).2 :=
  claim_C8 sampleOracle
    [(("t").toList, ("a.jpg").toList), (("t").toList, ("b.jpg").toList)]
    ((("t").toList, ("c.jpg").toList)) [] (by decide) (Or.inl (by decide))

/-- C1: collision safety of the rename plan.  The destination computed for a
file is its own source (no-op) or a path absent from the filesystem at that
moment; the batch loop never fails — its candidate search terminates and the
`assert not os.path.exists(dst_filepath)` guarding every executed rename
never fires, so no existing file is ever overwritten; and two distinct files
of one directory resolving to the identical timestamp receive the
destinations with counter suffixes 000 and 001. -/
theorem claim_C1 :
    (∀ (fs : List Path) (src date dst : Path),
      findDst fs src (dstCandidate src date) = some dst →
      dst = src ∨ dst ∉ fs) ∧
    (∀ (entries : List (Path × Path)) (fs : List Path),
      ∃ out, execBatch entries fs = .ok out) ∧
    (∀ (fs : List Path) (s1 s2 date : Path),
      s1 ∈ fs → s2 ∈ fs → s1 ≠ s2 →
      pyDirname s2 = pyDirname s1 → pySplitextExt s2 = pySplitextExt s1 →
      dstCandidate s1 date 0 ∉ fs → dstCandidate s1 date 1 ∉ fs →
      ∃ fs', execBatch [(s1, date), (s2, date)] fs =
        .ok (fs', [(s1, dstCandidate s1 date 0), (s2, dstCandidate s1 date 1)])) := by
  refine ⟨?_, execBatch_isOk, ?_⟩
  · intro fs src date dst h
    rcases findDst_spec h with h' | h'
    · exact Or.inr h'
    · exact Or.inl h'
  · intro fs s1 s2 date hs1 hs2 hne hdir hext hc0 hc1
    have hcand2 : dstCandidate s2 date = dstCandidate s1 date :=
      dstCandidate_congr hdir hext
    have hfind1 : findDst fs s1 (dstCandidate s1 date) =
        some (dstCandidate s1 date 0) := findDst_first hc0
    have hne1 : dstCandidate s1 date 0 ≠ s1 := fun he => hc0 (by rw [he]; exact hs1)
    simp only [execBatch, hfind1]
    rw [if_neg hne1, if_neg hc0]
    have h0mem : dstCandidate s1 date 0 ∈
        dstCandidate s1 date 0 :: fs.erase s1 := List.mem_cons_self _ _
    have h0ne2 : dstCandidate s1 date 0 ≠ s2 := fun he => hc0 (by rw [he]; exact hs2)
    have h1ne0 : dstCandidate s1 date 1 ≠ dstCandidate s1 date 0 := by
      intro he
      have h10 := dstCandidate_inj s1 date he
      cases h10
    have h1notin : dstCandidate s1 date 1 ∉
        dstCandidate s1 date 0 :: fs.erase s1 := by
      intro hmem
      rcases List.mem_cons.mp hmem with he | hmem'
      · exact h1ne0 he
      · exact hc1 (List.mem_of_mem_erase hmem')
    have hfind2 : findDst (dstCandidate s1 date 0 :: fs.erase s1) s2
        (dstCandidate s2 date) = some (dstCandidate s1 date 1) := by
      rw [hcand2]
      exact findDst_second h0mem h0ne2 h1notin
    have hne2' : dstCandidate s1 date 1 ≠ s2 := fun he => hc1 (by rw [he]; exact hs2)
    simp only [execBatch, hfind2]
    rw [if_neg hne2', if_neg h1notin]
    exact ⟨_, rfl⟩

/-- C1 witness: a directory with two files sharing one timestamp — the batch
renames them to the `-000` and `-001` slots without failing. -/
theorem claim_C1_witness :
    ∃ fs', execBatch
        [(("d/a.jpg").toList, ("20240101-010101").toList),
         (("d/b.jpg").toList, ("20240101-010101").toList)]
        [("d/a.jpg").toList, ("d/b.jpg").toList] =
      .ok (fs',
        [(("d/a.jpg").toList,
          dstCandidate (("d/a.jpg").toList) (("20240101-010101").toList) 0),
         (("d/b.jpg").toList,
          dstCandidate (("d/a.jpg").toList) (("20240101-010101").toList) 1)]) :=
  claim_C1.2.2 [("d/a.jpg").toList, ("d/b.jpg").toList]
    (("d/a.jpg").toList) (("d/b.jpg").toList) (("20240101-010101").toList)
    (by decide) (by decide) (by decide) (by decide) (by decide)
    (by decide) (by decide)

/-- C4 (amended): the namer is a no-op for a file already sitting at its
assigned slot — candidate 0 equal to the source (the `-000` case), or more
generally a slot all of whose lower-numbered candidates are occupied by
other existing files — and a batch whose every entry sits at such a slot
performs zero filesystem moves and leaves the tree unchanged. -/
theorem claim_C4 :
    (∀ (fs : List Path) (src date : Path), dstCandidate src date 0 = src →
      findDst fs src (dstCandidate src date) = some src ∧
      execBatch [(src, date)] fs = .ok (fs, [])) ∧
    (∀ (entries : List (Path × Path)) (fs : List Path),
      (∀ e ∈ entries, ∃ k, dstCandidate e.1 e.2 k = e.1 ∧
        ∀ j < k, dstCandidate e.1 e.2 j ∈ fs ∧ dstCandidate e.1 e.2 j ≠ e.1) →
      execBatch entries fs = .ok (fs, [])) := by
  constructor
  · intro fs src date h0
    have hfind : findDst fs src (dstCandidate src date) = some src :=
      findDst_noop (dstCandidate_inj src date) h0
        (fun j hj => absurd hj (by omega))
    refine ⟨hfind, ?_⟩
    simp only [execBatch, hfind, if_pos]
  · intro entries fs h
    exact execBatch_allNoop entries fs h

/-- C4 counterexample: a file named with counter suffix `-001` whose `-000`
slot is free is NOT a no-op — the claim as stated fails: the computed
destination differs from the source and a real rename is executed. -/
theorem claim_C4_counterexample :
    execBatch [(("d/20240401-053642-001.jpg").toList, ("20240401-053642").toList)]
        [("d/20240401-053642-001.jpg").toList] =
      .ok ([("d/20240401-053642-000.jpg").toList],
        [(("d/20240401-053642-001.jpg").toList,
          ("d/20240401-053642-000.jpg").toList)]) ∧
    ("d/20240401-053642-000.jpg").toList ≠ ("d/20240401-053642-001.jpg").toList := by
  refine ⟨by decide, by decide⟩

/-- C4 witness: the spec's `-000` instance — a directory already containing
`20240401-053642-000.jpg`; re-running the namer on it with the same resolved
date returns the source path (no-op) and the batch performs zero moves. -/
theorem claim_C4_witness :
    findDst [("d/20240401-053642-000.jpg").toList]
        (("d/20240401-053642-000.jpg").toList)
        (dstCandidate (("d/20240401-053642-000.jpg").toList)
          (("20240401-053642").toList)) =
      some (("d/20240401-053642-000.jpg").toList) ∧
    execBatch [(("d/20240401-053642-000.jpg").toList, ("20240401-053642").toList)]
        [("d/20240401-053642-000.jpg").toList] =
      .ok ([("d/20240401-053642-000.jpg").toList], []) :=
  claim_C4.1 [("d/20240401-053642-000.jpg").toList]
    (("d/20240401-053642-000.jpg").toList) (("20240401-053642").toList) (by decide)

end ImageDater
